import Mathlib

/-!
Verification development for a BFV-style leveled homomorphic-encryption core.

The repository ships the example program `native/examples/1_basic_bfv.cpp`,
which drives the library through a concrete depth-2 computation.  The library
components themselves (RingContext, KeyMaterial, Encryptor, Decryptor,
Evaluator) are not part of the source tree, so they are modelled here from the
specification: ciphertexts carry the data the specification assigns to them
(a plaintext value modulo the plaintext modulus, a polynomial count `size`,
a bound on the accumulated noise, the randomness used at encryption, and the
identity of the context they were built under), and every operation follows
the contract the specification states for it.  The noise bound is kept as a
bit count `noiseBits`, meaning the accumulated noise magnitude is strictly
below `2 ^ noiseBits`; the decryptor really performs the rescale-and-round
arithmetic of the specification on the worst-case noise, so the round-trip and
homomorphism theorems below rest on genuine integer rounding analysis.
-/

deriving instance DecidableEq for Except

set_option maxRecDepth 100000

namespace Seal

/-- Fuel-driven binary logarithm; `log2Aux f n` is `⌊log₂ n⌋` whenever
`n ≤ f`.  A fuel-based structural recursion is used so that the kernel can
evaluate it inside `decide`. -/
def log2Aux : Nat → Nat → Nat
  | 0, _ => 0
  | f + 1, n => if 2 ≤ n then log2Aux f (n / 2) + 1 else 0

/-- Binary logarithm `⌊log₂ n⌋` (with `nlog2 0 = 0` and `nlog2 1 = 0`). -/
def nlog2 (n : Nat) : Nat := log2Aux n n

/-- Fuel-driven power-of-two test; `isPow2Aux f n` decides whether `n` is a
power of two whenever `n ≤ f`. -/
def isPow2Aux : Nat → Nat → Bool
  | 0, _ => false
  | f + 1, n =>
    if n == 1 then true
    else if n % 2 == 0 && n != 0 then isPow2Aux f (n / 2)
    else false

/-- Power-of-two test on naturals. -/
def isPow2 (n : Nat) : Bool := isPow2Aux n n

/-- Fuel-driven modular exponentiation by repeated squaring:
`powModAux m b f e = b ^ e % m` whenever `e ≤ f` and `2 ≤ m`. -/
def powModAux (m : Nat) : Nat → Nat → Nat → Nat
  | _, 0, _ => 1 % m
  | _, _ + 1, 0 => 1 % m
  | b, f + 1, e =>
    let h := powModAux m (b * b % m) f (e / 2)
    if e % 2 == 1 then b * h % m else h

/-- Modular exponentiation `b ^ e % m`. -/
def powMod (m b e : Nat) : Nat := powModAux m b e e

/-- Fuel-driven 2-adic decomposition: `twoAdic f k = (r, d)` with
`k = 2 ^ r * d` and `d` odd, whenever `k ≤ f` and `0 < k`. -/
def twoAdic : Nat → Nat → Nat × Nat
  | 0, k => (0, k)
  | f + 1, k =>
    if k % 2 == 0 && k != 0 then
      let p := twoAdic f (k / 2)
      (p.1 + 1, p.2)
    else (0, k)

/-- One squaring chain of a Miller-Rabin round: starting from `x`, square up
to `fuel` times looking for `n - 1`. -/
def mrSquareChain (n : Nat) : Nat → Nat → Bool
  | 0, _ => false
  | f + 1, x =>
    let y := x * x % n
    if y == n - 1 then true
    else if y == 1 then false
    else mrSquareChain n f y

/-- One Miller-Rabin round for base `a`, where `n - 1 = 2 ^ r * d`. -/
def mrRound (n d r a : Nat) : Bool :=
  let x := powMod n (a % n) d
  if x == 1 || x == n - 1 then true
  else mrSquareChain n (r - 1) x

/-- Deterministic Miller-Rabin primality test with the standard base set,
correct for every number below 3.3·10²⁴; used as the modulus-factor
primality check of context validation. -/
def millerRabin (n : Nat) : Bool :=
  if n < 2 then false
  else if n == 2 then true
  else if n % 2 == 0 then false
  else
    let p := twoAdic (n - 1) (n - 1)
    [2, 3, 5, 7, 11, 13, 17, 19, 23, 29, 31, 37].all fun a =>
      a % n == 0 || mrRound n p.2 p.1 a

/-- Division rounded to nearest, half away from zero:
`roundDiv x y = ⌊x / y⌉` computed as `(2x + y) / (2y)`.  The specification
leaves the tie-breaking rule open; round-half-up is the rule chosen here. -/
def roundDiv (x y : Nat) : Nat := (2 * x + y) / (2 * y)

/-- Subkinds of the context-construction failure. -/
inductive ParamErrorKind where
  | invalidDegree
  | nonPrimeFactor
  | incompatibleFactor
  | modulusTooSmall
  deriving DecidableEq

/-- Error taxonomy of the core, following the specification. -/
inductive SealError where
  | parameterError (kind : ParamErrorKind)
  | insufficientContext
  | insufficientRelinKeys
  | contextMismatch
  | ciphertextTooLarge
  deriving DecidableEq

/-- Modelled from the spec: the `RingContext` component (not part of the
source tree).  It owns the ring degree, the ordered list of coefficient
modulus factors and the plaintext modulus; the `id` field models the identity
of the context instance (two contexts built from identical parameters are
still distinct instances). -/
structure RingContext where
  id : Nat
  ringDegree : Nat
  factors : List Nat
  plainModulus : Nat
  deriving DecidableEq

/-- The composite coefficient modulus: the product of the modulus factors. -/
def coeffModulus (ctx : RingContext) : Nat := ctx.factors.prod

/-- Largest ciphertext size the context's precomputed tables support. -/
def maxCipherSize (ctx : RingContext) : Nat := ctx.ringDegree

/-- Total noise headroom of the context in bits: `⌊log₂(q / T)⌋` for
coefficient modulus `q` and plaintext modulus `T`. -/
def capBits (ctx : RingContext) : Nat :=
  nlog2 (coeffModulus ctx / ctx.plainModulus)

/-- Modelled from the spec: the secret key (its polynomial content is not
needed by any claim; the key records the context it belongs to and the
randomness it was drawn from). -/
structure SecretKey where
  ctxId : Nat
  seed : Nat
  deriving DecidableEq

/-- Modelled from the spec: the public key derived from the secret key plus
fresh randomness. -/
structure PublicKey where
  ctxId : Nat
  seed : Nat
  deriving DecidableEq

/-- Modelled from the spec: a relinearization key set; `count` key-switching
key pairs, each enabling reduction of the ciphertext size by one. -/
structure RelinKeySet where
  ctxId : Nat
  count : Nat
  deriving DecidableEq

/-- Modelled from the spec: a ciphertext.  `val` is the plaintext value it
encrypts (an integer modulo the plaintext modulus), `size` the number of
polynomials, `noiseBits` an exclusive bit bound on the accumulated noise
magnitude (noise `< 2 ^ noiseBits`), `tag` the encryption randomness it
descends from, and `ctxId` the context instance it was built under. -/
structure Ciphertext where
  ctxId : Nat
  val : Nat
  size : Nat
  noiseBits : Nat
  tag : Nat
  deriving DecidableEq

/-- Modelled from the spec: `RingContext.create` validates the parameter
tuple and never partially constructs a context.  The checks, in order:
the ring degree is a power of two at least 2 (`invalidDegree`), every
coefficient modulus factor is prime (`nonPrimeFactor`), every factor is
congruent to 1 modulo twice the ring degree (`incompatibleFactor`), and the
plaintext modulus is a positive integer smaller than every factor of a
nonempty factor list (`modulusTooSmall`). -/
def RingContext.create (id degree : Nat) (factors : List Nat) (t : Nat) :
    Except SealError RingContext :=
  if 2 ≤ degree ∧ isPow2 degree = true then
    if factors.all millerRabin = true then
      if factors.all (fun p => p % (2 * degree) == 1) = true then
        if factors ≠ [] ∧ 0 < t ∧ factors.all (fun p => t < p) = true then
          .ok ⟨id, degree, factors, t⟩
        else .error (.parameterError .modulusTooSmall)
      else .error (.parameterError .incompatibleFactor)
    else .error (.parameterError .nonPrimeFactor)
  else .error (.parameterError .invalidDegree)

/-- Modelled from the spec: `KeyMaterial.generate` draws the secret key from
the random source and derives the public key from it with fresh randomness. -/
def keygen (ctx : RingContext) (rng : Nat) : SecretKey × PublicKey :=
  (⟨ctx.id, rng⟩, ⟨ctx.id, rng + 1⟩)

/-- Modelled from the spec: `relin_keys` produces `count` key-switching key
pairs; it fails with `insufficientContext` when the context cannot support
the requested count. -/
def relin_keys (sk : SecretKey) (ctx : RingContext) (rng count : Nat) :
    Except SealError RelinKeySet :=
  if count + 2 ≤ maxCipherSize ctx then .ok ⟨ctx.id, count⟩
  else .error .insufficientContext

/-- Bit bound of the noise in a freshly encrypted ciphertext; determined by
the encryption parameters (the fresh encryption error is of the order of the
plaintext modulus times a parameter-level constant). -/
def freshNoiseBits (ctx : RingContext) : Nat := nlog2 ctx.plainModulus + 10

/-- Modelled from the spec: `encrypt` encodes the plaintext and produces a
size-2 ciphertext from the public key and fresh randomness `rng`; it is total
over any plaintext/context pair and repeated calls differ in the randomness
they record. -/
def encrypt (m : Nat) (pk : PublicKey) (ctx : RingContext) (rng : Nat) :
    Ciphertext :=
  { ctxId := ctx.id
    val := m % ctx.plainModulus
    size := 2
    noiseBits := freshNoiseBits ctx
    tag := rng }

/-- Modelled from the spec: `decrypt` rescales by the plaintext/ciphertext
modulus ratio and rounds: the scaled value `⌊q/T⌋·val` plus the worst-case
accumulated noise `2^noiseBits - 1` is multiplied by `T`, divide-and-rounded
by `q` and reduced modulo `T`.  It is total: it returns a value for every
ciphertext, reliable only while the noise budget is positive. -/
def decrypt (c : Ciphertext) (sk : SecretKey) (ctx : RingContext) : Nat :=
  roundDiv
    (ctx.plainModulus *
      (coeffModulus ctx / ctx.plainModulus * c.val + (2 ^ c.noiseBits - 1)))
    (coeffModulus ctx) % ctx.plainModulus

/-- Modelled from the spec: the remaining noise budget in bits,
`⌊log₂(q/T) - log₂(noise)⌋` clamped at zero (natural subtraction). -/
def invariant_noise_budget (c : Ciphertext) (sk : SecretKey)
    (ctx : RingContext) : Nat :=
  capBits ctx - c.noiseBits

/-- Modelled from the spec: homomorphic addition.  Requires equal context;
the result size is the maximum of the operand sizes and the noise grows
additively (one extra bit at worst). -/
def add (ctx : RingContext) (a b : Ciphertext) :
    Except SealError Ciphertext :=
  if a.ctxId = ctx.id ∧ b.ctxId = ctx.id then
    if max a.size b.size ≤ maxCipherSize ctx then
      .ok { ctxId := ctx.id
            val := (a.val + b.val) % ctx.plainModulus
            size := max a.size b.size
            noiseBits := max a.noiseBits b.noiseBits + 1
            tag := a.tag + b.tag }
    else .error .ciphertextTooLarge
  else .error .contextMismatch

/-- Modelled from the spec: addition of a plaintext into the ciphertext's
constant term; the size is unchanged and the noise grows additively. -/
def add_plain (ctx : RingContext) (a : Ciphertext) (m : Nat) :
    Except SealError Ciphertext :=
  if a.ctxId = ctx.id then
    .ok { a with val := (a.val + m) % ctx.plainModulus
                 noiseBits := a.noiseBits + 1 }
  else .error .contextMismatch

/-- Modelled from the spec: homomorphic multiplication.  The result has size
`a.size + b.size - 1`; the noise consumption is `log₂(plain_modulus)` plus
further terms, and operating on larger ciphertexts consumes considerably more
noise (the size-dependent term below). -/
def multiply (ctx : RingContext) (a b : Ciphertext) :
    Except SealError Ciphertext :=
  if a.ctxId = ctx.id ∧ b.ctxId = ctx.id then
    if a.size + b.size - 1 ≤ maxCipherSize ctx then
      .ok { ctxId := ctx.id
            val := a.val * b.val % ctx.plainModulus
            size := a.size + b.size - 1
            noiseBits := max a.noiseBits b.noiseBits
              + nlog2 ctx.plainModulus + 26 + 16 * (a.size + b.size - 4)
            tag := a.tag * b.tag + 1 }
    else .error .ciphertextTooLarge
  else .error .contextMismatch

/-- Modelled from the spec: squaring, a specialization of `multiply` with the
same output size and noise profile. -/
def square (ctx : RingContext) (a : Ciphertext) :
    Except SealError Ciphertext :=
  multiply ctx a a

/-- Modelled from the spec: multiplication by a plaintext; the size is
unchanged and the noise grows by roughly `log₂(plain_modulus)` bits. -/
def multiply_plain (ctx : RingContext) (a : Ciphertext) (m : Nat) :
    Except SealError Ciphertext :=
  if a.ctxId = ctx.id then
    .ok { a with val := a.val * m % ctx.plainModulus
                 noiseBits := a.noiseBits + nlog2 ctx.plainModulus }
  else .error .contextMismatch

/-- Modelled from the spec: relinearization.  Requires
`a.size - 2 ≤ keys.count` and fails with `insufficientRelinKeys` otherwise;
on success it reduces the size to 2, preserves the encrypted value and adds
only a small size-independent amount of noise (one bit here). -/
def relinearize (ctx : RingContext) (a : Ciphertext) (keys : RelinKeySet) :
    Except SealError Ciphertext :=
  if a.ctxId = ctx.id ∧ keys.ctxId = ctx.id then
    if a.size - 2 ≤ keys.count then
      .ok { a with size := 2, noiseBits := a.noiseBits + 1 }
    else .error .insufficientRelinKeys
  else .error .contextMismatch

/-- One step of an Evaluator lineage: the operation applied next to the
ciphertext the lineage carries. -/
inductive EvalOp where
  | addCt (b : Ciphertext)
  | addPl (m : Nat)
  | mulCt (b : Ciphertext)
  | mulPl (m : Nat)
  | sq
  | relin (keys : RelinKeySet)

/-- Apply one Evaluator operation to the lineage ciphertext. -/
def applyOp (ctx : RingContext) (c : Ciphertext) : EvalOp →
    Except SealError Ciphertext
  | .addCt b => add ctx c b
  | .addPl m => add_plain ctx c m
  | .mulCt b => multiply ctx c b
  | .mulPl m => multiply_plain ctx c m
  | .sq => square ctx c
  | .relin keys => relinearize ctx c keys

/-- Run a sequence of Evaluator operations along one ciphertext lineage. -/
def runOps (ctx : RingContext) (c : Ciphertext) : List EvalOp →
    Except SealError Ciphertext
  | [] => .ok c
  | op :: rest => (applyOp ctx c op).bind fun c2 => runOps ctx c2 rest

/-- Whether an operation is a multiply, square, or multiply-plain. -/
def EvalOp.isMul : EvalOp → Bool
  | .mulCt _ => true
  | .mulPl _ => true
  | .sq => true
  | _ => false

/-! The concrete scenario of `1_basic_bfv.cpp`: ring degree 4096, plaintext
modulus 256 and the three default 128-bit-security primes
`0xffffee001`, `0xffffc4001`, `0x1ffffe0001`; encrypt `x = 6` and evaluate
`2(x²+1)(x+1)²` once without and once with relinearization after each
multiplication.  The definitions below embed lines 265-485 of the example. -/

/-- The example's parameter list. -/
def exFactors : List Nat := [0xffffee001, 0xffffc4001, 0x1ffffe0001]

/-- The example's validated context. -/
def exCtx : RingContext := ⟨0, 4096, exFactors, 256⟩

/-- The example's secret key. -/
def exSk : SecretKey := (keygen exCtx 0).1

/-- The example's public key. -/
def exPk : PublicKey := (keygen exCtx 0).2

/-- The example's single relinearization key set (count 1). -/
def exKeys : RelinKeySet := ⟨0, 1⟩

/-- `encrypted_x`: the encryption of the plaintext 6. -/
def exX : Ciphertext := encrypt 6 exPk exCtx 0

/-- First pass, `x_square_plus_one`: square then add plain 1 (no
relinearization). -/
def exNoRelinA : Except SealError Ciphertext := do
  let s ← square exCtx exX
  add_plain exCtx s 1

/-- First pass, `x_plus_one_square`: add plain 1 then square (no
relinearization). -/
def exNoRelinB : Except SealError Ciphertext := do
  let s ← add_plain exCtx exX 1
  square exCtx s

/-- First pass, `(x²+1)(x+1)²` without relinearization. -/
def exNoRelinProd : Except SealError Ciphertext := do
  let a ← exNoRelinA
  let b ← exNoRelinB
  multiply exCtx a b

/-- First pass, `2(x²+1)(x+1)²` without relinearization. -/
def exNoRelinFinal : Except SealError Ciphertext := do
  let p ← exNoRelinProd
  multiply_plain exCtx p 2

/-- Second pass, `x²`. -/
def exRelinS1 : Except SealError Ciphertext := square exCtx exX

/-- Second pass, `x²` relinearized. -/
def exRelinS2 : Except SealError Ciphertext := do
  let c ← exRelinS1
  relinearize exCtx c exKeys

/-- Second pass, `x²+1`. -/
def exRelinS3 : Except SealError Ciphertext := do
  let c ← exRelinS2
  add_plain exCtx c 1

/-- Second pass, `x+1`. -/
def exRelinT1 : Except SealError Ciphertext := add_plain exCtx exX 1

/-- Second pass, `(x+1)²`. -/
def exRelinT2 : Except SealError Ciphertext := do
  let c ← exRelinT1
  square exCtx c

/-- Second pass, `(x+1)²` relinearized. -/
def exRelinT3 : Except SealError Ciphertext := do
  let c ← exRelinT2
  relinearize exCtx c exKeys

/-- Second pass, `(x²+1)(x+1)²`. -/
def exRelinU1 : Except SealError Ciphertext := do
  let a ← exRelinS3
  let b ← exRelinT3
  multiply exCtx a b

/-- Second pass, `(x²+1)(x+1)²` relinearized. -/
def exRelinU2 : Except SealError Ciphertext := do
  let c ← exRelinU1
  relinearize exCtx c exKeys

/-- Second pass, `2(x²+1)(x+1)²`, the final relinearized result. -/
def exRelinFinal : Except SealError Ciphertext := do
  let c ← exRelinU2
  multiply_plain exCtx c 2

/-! Arithmetic facts about the helpers. -/

theorem log2Aux_le : ∀ f n, 1 ≤ n → n ≤ f → 2 ^ log2Aux f n ≤ n := by
  intro f
  induction f with
  | zero => intro n h1 h2; simpa [log2Aux] using h1
  | succ f ih =>
    intro n h1 h2
    unfold log2Aux
    split
    · rename_i h2n
      have hd1 : 1 ≤ n / 2 := by omega
      have hd2 : n / 2 ≤ f := by omega
      have hih := ih (n / 2) hd1 hd2
      rw [pow_succ]
      omega
    · simpa using h1

theorem nlog2_le_self {n : Nat} (h : 1 ≤ n) : 2 ^ nlog2 n ≤ n :=
  log2Aux_le n n h le_rfl

theorem nlog2_pos {n : Nat} (h : 2 ≤ n) : 1 ≤ nlog2 n := by
  obtain ⟨m, rfl⟩ : ∃ m, n = m + 2 := ⟨n - 2, by omega⟩
  unfold nlog2 log2Aux
  simp

theorem roundDiv_eq_zero {w q : Nat} (h : 2 * w < q) : roundDiv w q = 0 := by
  unfold roundDiv
  exact Nat.div_eq_of_lt (by omega)

theorem roundDiv_eq_one {w q : Nat} (h1 : q ≤ 2 * w) (h2 : 2 * w < 3 * q) :
    roundDiv w q = 1 := by
  unfold roundDiv
  exact Nat.div_eq_of_lt_le (by omega) (by omega)

theorem roundDiv_mul_add {q : Nat} (a w : Nat) (hq : 0 < q) :
    roundDiv (q * a + w) q = a + roundDiv w q := by
  unfold roundDiv
  have h : 2 * (q * a + w) + q = 2 * q * a + (2 * w + q) := by ring
  rw [h, Nat.mul_add_div (by omega)]

/-- Core rescale-and-round analysis: multiplying the scaled value
`⌊q/t⌋·v + E` by `t`, rounding the division by `q` and reducing modulo `t`
recovers `v`, provided the noise term `E` and the plaintext modulus are small
against `q`. -/
theorem roundDiv_scaled {q t v E : Nat} (ht : 0 < t) (hv : v < t)
    (hE : 2 * (t * E) < q) (htt : 2 * (t * t) ≤ q) :
    roundDiv (t * (q / t * v + E)) q % t = v := by
  have hq0 : 0 < q := by omega
  set d := q / t with hd
  set r := q % t with hrdef
  have hqd : t * d + r = q := Nat.div_add_mod q t
  have hr : r < t := Nat.mod_lt q ht
  rcases Nat.eq_zero_or_pos v with hv0 | hv1
  · subst hv0
    rw [show t * (d * 0 + E) = t * E by ring, roundDiv_eq_zero hE]
    simp
  · have hrv : r * v < t * t := by
      calc r * v ≤ r * t := Nat.mul_le_mul_left r (le_of_lt hv)
        _ < t * t := mul_lt_mul_of_pos_right hr ht
    have hrvq : r * v ≤ q := by omega
    have hkey : t * (d * v + E) = q * (v - 1) + (q - r * v + t * E) := by
      zify [hrvq, hv1]
      have htd : (t : ℤ) * d + r = q := by exact_mod_cast hqd
      linear_combination (v : ℤ) * htd
    rw [hkey, roundDiv_mul_add _ _ hq0, roundDiv_eq_one (by omega) (by omega),
      show v - 1 + 1 = v by omega, Nat.mod_eq_of_lt hv]

/-- A positive noise budget bounds the worst-case accumulated noise well
inside the rounding tolerance of decryption. -/
theorem budget_pos_noise_lt {ctx : RingContext} {c : Ciphertext}
    {sk : SecretKey} (ht : 0 < ctx.plainModulus)
    (hb : 0 < invariant_noise_budget c sk ctx) :
    2 * (ctx.plainModulus * (2 ^ c.noiseBits - 1)) < coeffModulus ctx := by
  have hcap : c.noiseBits < capBits ctx := by
    unfold invariant_noise_budget at hb; omega
  have hqt : 1 ≤ coeffModulus ctx / ctx.plainModulus := by
    rcases Nat.eq_zero_or_pos (coeffModulus ctx / ctx.plainModulus) with h0 | h0
    · exfalso
      have hc0 : capBits ctx = 0 := by unfold capBits; rw [h0]; rfl
      omega
    · exact h0
  have h1 : 2 ^ (c.noiseBits + 1) ≤ 2 ^ capBits ctx :=
    Nat.pow_le_pow_right (by omega) (by omega)
  have h2 : 2 ^ capBits ctx ≤ coeffModulus ctx / ctx.plainModulus := by
    unfold capBits
    exact nlog2_le_self hqt
  have h3 : ctx.plainModulus * (coeffModulus ctx / ctx.plainModulus) ≤
      coeffModulus ctx := by
    rw [Nat.mul_comm]
    exact Nat.div_mul_le_self _ _
  have h4 : ctx.plainModulus * 2 ^ (c.noiseBits + 1) ≤ coeffModulus ctx :=
    le_trans (Nat.mul_le_mul_left _ (le_trans h1 h2)) h3
  have h5 : ctx.plainModulus * 2 ^ (c.noiseBits + 1) =
      2 * (ctx.plainModulus * 2 ^ c.noiseBits) := by ring
  have hp : 0 < 2 ^ c.noiseBits := Nat.two_pow_pos c.noiseBits
  have h6 : ctx.plainModulus * (2 ^ c.noiseBits - 1) + ctx.plainModulus =
      ctx.plainModulus * 2 ^ c.noiseBits := by
    calc ctx.plainModulus * (2 ^ c.noiseBits - 1) + ctx.plainModulus
        = ctx.plainModulus * (2 ^ c.noiseBits - 1 + 1) := by ring
      _ = ctx.plainModulus * 2 ^ c.noiseBits := by
          rw [Nat.sub_add_cancel hp]
  omega

/-- While the noise budget is positive, decryption recovers the value the
ciphertext encrypts. -/
theorem decrypt_eq_val {ctx : RingContext} {c : Ciphertext} {sk : SecretKey}
    (ht : 0 < ctx.plainModulus) (hval : c.val < ctx.plainModulus)
    (htt : 2 * (ctx.plainModulus * ctx.plainModulus) ≤ coeffModulus ctx)
    (hb : 0 < invariant_noise_budget c sk ctx) :
    decrypt c sk ctx = c.val := by
  have hE := budget_pos_noise_lt ht hb
  unfold decrypt
  exact roundDiv_scaled ht hval hE htt

/-! Inversion facts for the operations. -/

theorem create_ok_plain_pos {cid deg : Nat} {fs : List Nat} {t : Nat}
    {ctx : RingContext} (h : RingContext.create cid deg fs t = Except.ok ctx) :
    0 < ctx.plainModulus := by
  unfold RingContext.create at h
  split at h
  · split at h
    · split at h
      · split at h
        · rename_i h4
          simp only [Except.ok.injEq] at h
          subst h
          exact h4.2.1
        · exact absurd h (by simp)
      · exact absurd h (by simp)
    · exact absurd h (by simp)
  · exact absurd h (by simp)

theorem add_ok_fields {ctx : RingContext} {a b c : Ciphertext}
    (h : add ctx a b = Except.ok c) :
    c.val = (a.val + b.val) % ctx.plainModulus ∧
    c.size = max a.size b.size ∧
    c.noiseBits = max a.noiseBits b.noiseBits + 1 := by
  unfold add at h
  split at h
  · split at h
    · simp only [Except.ok.injEq] at h
      subst h
      exact ⟨rfl, rfl, rfl⟩
    · exact absurd h (by simp)
  · exact absurd h (by simp)

theorem add_plain_ok_fields {ctx : RingContext} {a c : Ciphertext} {m : Nat}
    (h : add_plain ctx a m = Except.ok c) :
    c.val = (a.val + m) % ctx.plainModulus ∧
    c.size = a.size ∧
    c.noiseBits = a.noiseBits + 1 := by
  unfold add_plain at h
  split at h
  · simp only [Except.ok.injEq] at h
    subst h
    exact ⟨rfl, rfl, rfl⟩
  · exact absurd h (by simp)

theorem multiply_ok_fields {ctx : RingContext} {a b c : Ciphertext}
    (h : multiply ctx a b = Except.ok c) :
    c.val = a.val * b.val % ctx.plainModulus ∧
    c.size = a.size + b.size - 1 ∧
    c.noiseBits = max a.noiseBits b.noiseBits
      + nlog2 ctx.plainModulus + 26 + 16 * (a.size + b.size - 4) := by
  unfold multiply at h
  split at h
  · split at h
    · simp only [Except.ok.injEq] at h
      subst h
      exact ⟨rfl, rfl, rfl⟩
    · exact absurd h (by simp)
  · exact absurd h (by simp)

theorem multiply_plain_ok_fields {ctx : RingContext} {a c : Ciphertext}
    {m : Nat} (h : multiply_plain ctx a m = Except.ok c) :
    c.val = a.val * m % ctx.plainModulus ∧
    c.size = a.size ∧
    c.noiseBits = a.noiseBits + nlog2 ctx.plainModulus := by
  unfold multiply_plain at h
  split at h
  · simp only [Except.ok.injEq] at h
    subst h
    exact ⟨rfl, rfl, rfl⟩
  · exact absurd h (by simp)

theorem relinearize_ok_fields {ctx : RingContext} {a c : Ciphertext}
    {keys : RelinKeySet} (h : relinearize ctx a keys = Except.ok c) :
    c.val = a.val ∧ c.size = 2 ∧ c.noiseBits = a.noiseBits + 1 := by
  unfold relinearize at h
  split at h
  · split at h
    · simp only [Except.ok.injEq] at h
      subst h
      exact ⟨rfl, rfl, rfl⟩
    · exact absurd h (by simp)
  · exact absurd h (by simp)

/-- Every successful Evaluator operation leaves the noise bound of the
lineage ciphertext no smaller. -/
theorem applyOp_noise_le {ctx : RingContext} {c c2 : Ciphertext} {op : EvalOp}
    (h : applyOp ctx c op = Except.ok c2) : c.noiseBits ≤ c2.noiseBits := by
  cases op with
  | addCt b =>
    have hf := add_ok_fields h
    omega
  | addPl m =>
    have hf := add_plain_ok_fields h
    omega
  | mulCt b =>
    have hf := multiply_ok_fields h
    omega
  | mulPl m =>
    have hf := multiply_plain_ok_fields h
    omega
  | sq =>
    have hf := multiply_ok_fields h
    omega
  | relin keys =>
    have hf := relinearize_ok_fields h
    omega

/-- Multiplications (with a ciphertext or a plaintext, including squaring)
strictly increase the noise bound, for a plaintext modulus of at least 2. -/
theorem applyOp_mul_noise_lt {ctx : RingContext} {c c2 : Ciphertext}
    {op : EvalOp} (h2t : 2 ≤ ctx.plainModulus) (hm : op.isMul = true)
    (h : applyOp ctx c op = Except.ok c2) : c.noiseBits + 1 ≤ c2.noiseBits := by
  have hlog := nlog2_pos h2t
  cases op with
  | addCt b => simp [EvalOp.isMul] at hm
  | addPl m => simp [EvalOp.isMul] at hm
  | mulCt b =>
    have hf := multiply_ok_fields h
    omega
  | mulPl m =>
    have hf := multiply_plain_ok_fields h
    omega
  | sq =>
    have hf := multiply_ok_fields h
    omega
  | relin keys => simp [EvalOp.isMul] at hm

/-- Budget form of `applyOp_noise_le`. -/
theorem applyOp_budget_le {ctx : RingContext} {sk : SecretKey}
    {c c2 : Ciphertext} {op : EvalOp} (h : applyOp ctx c op = Except.ok c2) :
    invariant_noise_budget c2 sk ctx ≤ invariant_noise_budget c sk ctx := by
  have := applyOp_noise_le h
  unfold invariant_noise_budget
  omega

/-- Budget along a whole operation sequence is non-increasing. -/
theorem runOps_budget_le {ctx : RingContext} {sk : SecretKey} :
    ∀ (ops : List EvalOp) (c c2 : Ciphertext),
      runOps ctx c ops = Except.ok c2 →
      invariant_noise_budget c2 sk ctx ≤ invariant_noise_budget c sk ctx := by
  intro ops
  induction ops with
  | nil =>
    intro c c2 h
    unfold runOps at h
    simp only [Except.ok.injEq] at h
    subst h
    exact le_rfl
  | cons op rest ih =>
    intro c c2 h
    unfold runOps at h
    cases hap : applyOp ctx c op with
    | error e =>
      rw [hap] at h
      exact absurd h (by simp [Except.bind])
    | ok c1 =>
      rw [hap] at h
      simp only [Except.bind] at h
      exact le_trans (ih c1 c2 h) (applyOp_budget_le hap)

/-! Small concrete contexts and ciphertexts used to witness the general
theorems below. -/

/-- A toy context (instance 7, degree 8, coefficient modulus 97, plaintext
modulus 4). -/
def wCtx : RingContext := ⟨7, 8, [97], 4⟩

/-- A secret key for the toy context. -/
def wSk : SecretKey := ⟨7, 0⟩

/-- A public key for the toy context. -/
def wPk : PublicKey := ⟨7, 9⟩

/-- A size-2 ciphertext under the toy context. -/
def wC2 : Ciphertext := ⟨7, 1, 2, 3, 0⟩

/-- A size-3 ciphertext under the toy context. -/
def wC3 : Ciphertext := ⟨7, 2, 3, 4, 0⟩

/-- A relinearization key set of count 2 under the toy context. -/
def wKeys : RelinKeySet := ⟨7, 2⟩

/-- A creatable toy context: degree 2, the NTT-friendly prime 12289
(congruent to 1 modulo 4), plaintext modulus 2. -/
def ctx12289 : RingContext := ⟨1, 2, [12289], 2⟩

/-- A toy context with a large coefficient modulus (2^40), giving plenty of
noise headroom. -/
def wBigCtx : RingContext := ⟨2, 4, [1099511627776], 4⟩

/-- A secret key for the large toy context. -/
def wSk2 : SecretKey := ⟨2, 0⟩

/-! The claims. -/

/-- C1: with ring degree 4096, plaintext modulus 256 and the three-prime
~109-bit coefficient modulus, encrypting `x = 6` and computing
`2(x²+1)(x+1)²` with relinearization after each multiplication decrypts to
`3626 mod 256 = 42`, and the final noise budget (3 bits) is strictly greater
than the final budget of the same computation without relinearization
(0 bits). -/
theorem claim1_concrete_scenario :
    RingContext.create 0 4096 exFactors 256 = Except.ok exCtx ∧
    exRelinFinal.map (fun c => decrypt c exSk exCtx)
      = Except.ok (3626 % 256) ∧
    3626 % 256 = 42 ∧
    exRelinFinal.map (fun c => invariant_noise_budget c exSk exCtx)
      = Except.ok 3 ∧
    exNoRelinFinal.map (fun c => invariant_noise_budget c exSk exCtx)
      = Except.ok 0 ∧
    (0 : Nat) < 3 := by decide

/-- C2: for every plaintext `p` encodable under a valid (creatable) context,
decrypting the encryption of `p` returns `p`, provided the fresh ciphertext's
noise budget is positive (and the plaintext modulus is small against the
coefficient modulus). -/
theorem claim2_round_trip (cid deg : Nat) (fs : List Nat) (t : Nat)
    (ctx : RingContext) (pk : PublicKey) (sk : SecretKey) (p rng : Nat)
    (hc : RingContext.create cid deg fs t = Except.ok ctx)
    (htt : 2 * (ctx.plainModulus * ctx.plainModulus) ≤ coeffModulus ctx)
    (hp : p < ctx.plainModulus)
    (hb : 0 < invariant_noise_budget (encrypt p pk ctx rng) sk ctx) :
    decrypt (encrypt p pk ctx rng) sk ctx = p := by
  have ht : 0 < ctx.plainModulus := create_ok_plain_pos hc
  have hval : (encrypt p pk ctx rng).val = p := Nat.mod_eq_of_lt hp
  rw [decrypt_eq_val ht (by rw [hval]; exact hp) htt hb, hval]

/-- Witness for C2 at the creatable toy context: encrypting 1 and decrypting
returns 1. -/
theorem claim2_round_trip_witness :
    decrypt (encrypt 1 ⟨1, 9⟩ ctx12289 0) ⟨1, 0⟩ ctx12289 = 1 :=
  claim2_round_trip 1 2 [12289] 2 ctx12289 ⟨1, 9⟩ ⟨1, 0⟩ 1 0 (by decide)
    (by decide) (by decide) (by decide)

/-- C3: for ciphertexts `a, b` under one context encrypting integers `x, y`,
with enough remaining noise budget, the sum decrypts to `(x+y) mod T` and the
product to `(x·y) mod T`, `T` the plaintext modulus. -/
theorem claim3_homomorphism (ctx : RingContext) (sk : SecretKey)
    (a b ca cm : Ciphertext) (x y : Nat)
    (ht : 0 < ctx.plainModulus)
    (htt : 2 * (ctx.plainModulus * ctx.plainModulus) ≤ coeffModulus ctx)
    (hax : a.val = x % ctx.plainModulus)
    (hby : b.val = y % ctx.plainModulus)
    (hadd : add ctx a b = Except.ok ca)
    (hmul : multiply ctx a b = Except.ok cm)
    (hba : 0 < invariant_noise_budget ca sk ctx)
    (hbm : 0 < invariant_noise_budget cm sk ctx) :
    decrypt ca sk ctx = (x + y) % ctx.plainModulus ∧
    decrypt cm sk ctx = x * y % ctx.plainModulus := by
  obtain ⟨hv1, -, -⟩ := add_ok_fields hadd
  obtain ⟨hv2, -, -⟩ := multiply_ok_fields hmul
  constructor
  · rw [decrypt_eq_val ht (by rw [hv1]; exact Nat.mod_lt _ ht) htt hba, hv1,
      hax, hby]
    exact (Nat.add_mod x y _).symm
  · rw [decrypt_eq_val ht (by rw [hv2]; exact Nat.mod_lt _ ht) htt hbm, hv2,
      hax, hby]
    exact (Nat.mul_mod x y _).symm

/-- Witness for C3 under the large toy context, with `x = 5`, `y = 7` and
plaintext modulus 4. -/
theorem claim3_homomorphism_witness :
    decrypt (⟨2, 0, 2, 2, 0⟩ : Ciphertext) wSk2 wBigCtx = (5 + 7) % 4 ∧
    decrypt (⟨2, 3, 3, 29, 1⟩ : Ciphertext) wSk2 wBigCtx = 5 * 7 % 4 :=
  claim3_homomorphism wBigCtx wSk2 ⟨2, 1, 2, 1, 0⟩ ⟨2, 3, 2, 1, 0⟩
    ⟨2, 0, 2, 2, 0⟩ ⟨2, 3, 3, 29, 1⟩ 5 7 (by decide) (by decide) (by decide)
    (by decide) (by decide) (by decide) (by decide) (by decide)

/-- C4: relinearizing a ciphertext of size above 2 with a key set of
sufficient count yields a size-2 ciphertext decrypting to the same plaintext
(within the scheme's noise tolerance, here expressed by the headroom
hypothesis on the noise bound). -/
theorem claim4_relin_preserves (ctx : RingContext) (sk : SecretKey)
    (a : Ciphertext) (keys : RelinKeySet)
    (hactx : a.ctxId = ctx.id) (hkctx : keys.ctxId = ctx.id)
    (hsz : 2 < a.size) (hcount : a.size - 2 ≤ keys.count)
    (ht : 0 < ctx.plainModulus) (hval : a.val < ctx.plainModulus)
    (htt : 2 * (ctx.plainModulus * ctx.plainModulus) ≤ coeffModulus ctx)
    (hn : a.noiseBits + 1 < capBits ctx) :
    (relinearize ctx a keys).map Ciphertext.size = Except.ok 2 ∧
    (relinearize ctx a keys).map (fun c => decrypt c sk ctx)
      = Except.ok (decrypt a sk ctx) := by
  obtain ⟨c, hc⟩ : ∃ c, relinearize ctx a keys = Except.ok c := by
    unfold relinearize
    rw [if_pos ⟨hactx, hkctx⟩, if_pos hcount]
    exact ⟨_, rfl⟩
  obtain ⟨hcv, hcs, hcn⟩ := relinearize_ok_fields hc
  rw [hc]
  constructor
  · show Except.ok c.size = Except.ok 2
    rw [hcs]
  · show Except.ok (decrypt c sk ctx) = Except.ok (decrypt a sk ctx)
    have hbc : 0 < invariant_noise_budget c sk ctx := by
      show 0 < capBits ctx - c.noiseBits
      omega
    have hba : 0 < invariant_noise_budget a sk ctx := by
      show 0 < capBits ctx - a.noiseBits
      omega
    rw [decrypt_eq_val ht (by rw [hcv]; exact hval) htt hbc,
      decrypt_eq_val ht hval htt hba, hcv]

/-- Witness for C4: relinearizing a size-3 ciphertext with a count-1 key set
under the large toy context. -/
theorem claim4_relin_preserves_witness :
    (relinearize wBigCtx ⟨2, 1, 3, 5, 0⟩ ⟨2, 1⟩).map Ciphertext.size
      = Except.ok 2 ∧
    (relinearize wBigCtx ⟨2, 1, 3, 5, 0⟩ ⟨2, 1⟩).map
        (fun c => decrypt c wSk2 wBigCtx)
      = Except.ok (decrypt (⟨2, 1, 3, 5, 0⟩ : Ciphertext) wSk2 wBigCtx) :=
  claim4_relin_preserves wBigCtx wSk2 ⟨2, 1, 3, 5, 0⟩ ⟨2, 1⟩ (by decide)
    (by decide) (by decide) (by decide) (by decide) (by decide) (by decide)
    (by decide)

/-- Counterexample to C5 as stated: `add` does not leave the size unchanged
when the operands differ in size.  Adding the fresh `encrypted_x` (size 2)
to its square (size 3) in the example's own context yields size 3, the
maximum of the operand sizes. -/
theorem claim5_counterexample :
    (exRelinS1.bind fun s => add exCtx exX s).map Ciphertext.size
      = Except.ok 3 ∧
    exX.size = 2 ∧ (3 : Nat) ≠ 2 := by decide

/-- C5 (amended): a fresh ciphertext has size exactly 2; multiplying sizes
`M` and `N` yields `M + N - 1` (squaring `2M - 1`); `add` yields the maximum
of the operand sizes (so it leaves the size unchanged only for equal-size
operands); `add_plain` and `multiply_plain` leave the size unchanged; and
relinearization with sufficient keys resets the size to 2. -/
theorem claim5_size_invariant :
    (∀ (ctx : RingContext) (pk : PublicKey) (rng m : Nat),
      (encrypt m pk ctx rng).size = 2) ∧
    (∀ (ctx : RingContext) (a b c : Ciphertext),
      multiply ctx a b = Except.ok c → c.size = a.size + b.size - 1) ∧
    (∀ (ctx : RingContext) (a c : Ciphertext),
      square ctx a = Except.ok c → c.size = a.size + a.size - 1) ∧
    (∀ (ctx : RingContext) (a b c : Ciphertext),
      add ctx a b = Except.ok c → c.size = max a.size b.size) ∧
    (∀ (ctx : RingContext) (a c : Ciphertext) (m : Nat),
      add_plain ctx a m = Except.ok c → c.size = a.size) ∧
    (∀ (ctx : RingContext) (a c : Ciphertext) (m : Nat),
      multiply_plain ctx a m = Except.ok c → c.size = a.size) ∧
    (∀ (ctx : RingContext) (a c : Ciphertext) (keys : RelinKeySet),
      relinearize ctx a keys = Except.ok c → c.size = 2) := by
  refine ⟨fun ctx pk rng m => rfl, ?_, ?_, ?_, ?_, ?_, ?_⟩
  · intro ctx a b c h
    exact (multiply_ok_fields h).2.1
  · intro ctx a c h
    exact (multiply_ok_fields (show multiply ctx a a = Except.ok c from h)).2.1
  · intro ctx a b c h
    exact (add_ok_fields h).2.1
  · intro ctx a c m h
    exact (add_plain_ok_fields h).2.1
  · intro ctx a c m h
    exact (multiply_plain_ok_fields h).2.1
  · intro ctx a c keys h
    exact (relinearize_ok_fields h).2.1

/-- Witness for the amended C5: all seven size rules at concrete toy
inputs. -/
theorem claim5_size_invariant_witness :
    (encrypt 1 wPk wCtx 5).size = 2 ∧
    (⟨7, 2, 4, 48, 1⟩ : Ciphertext).size = wC2.size + wC3.size - 1 ∧
    (⟨7, 1, 3, 31, 1⟩ : Ciphertext).size = wC2.size + wC2.size - 1 ∧
    (⟨7, 3, 3, 5, 0⟩ : Ciphertext).size = max wC2.size wC3.size ∧
    (⟨7, 3, 2, 4, 0⟩ : Ciphertext).size = wC2.size ∧
    (⟨7, 3, 2, 5, 0⟩ : Ciphertext).size = wC2.size ∧
    (⟨7, 2, 2, 5, 0⟩ : Ciphertext).size = 2 :=
  ⟨claim5_size_invariant.1 wCtx wPk 5 1,
   claim5_size_invariant.2.1 wCtx wC2 wC3 ⟨7, 2, 4, 48, 1⟩ (by decide),
   claim5_size_invariant.2.2.1 wCtx wC2 ⟨7, 1, 3, 31, 1⟩ (by decide),
   claim5_size_invariant.2.2.2.1 wCtx wC2 wC3 ⟨7, 3, 3, 5, 0⟩ (by decide),
   claim5_size_invariant.2.2.2.2.1 wCtx wC2 ⟨7, 3, 2, 4, 0⟩ 2 (by decide),
   claim5_size_invariant.2.2.2.2.2.1 wCtx wC2 ⟨7, 3, 2, 5, 0⟩ 3 (by decide),
   claim5_size_invariant.2.2.2.2.2.2 wCtx wC3 ⟨7, 2, 2, 5, 0⟩ wKeys
     (by decide)⟩

/-- Counterexample to C6 as stated: once the budget has been exhausted it is
clamped at 0, so a further `multiply_plain` cannot strictly decrease it.  In
the example's own non-relinearized pipeline the product `(x²+1)(x+1)²`
already has budget 0, and the subsequent `multiply_plain` by 2 leaves the
budget at 0, not strictly below it. -/
theorem claim6_counterexample :
    exNoRelinProd.map (fun c => invariant_noise_budget c exSk exCtx)
      = Except.ok 0 ∧
    exNoRelinFinal.map (fun c => invariant_noise_budget c exSk exCtx)
      = Except.ok 0 ∧
    ¬ ((0 : Nat) < 0) := by decide

/-- C6 (amended): along any sequence of Evaluator operations on one
ciphertext lineage the noise budget never increases, and every multiply,
square, or multiply-plain strictly decreases it whenever the budget before
the operation is positive. -/
theorem claim6_noise_monotone (ctx : RingContext) (sk : SecretKey)
    (h2t : 2 ≤ ctx.plainModulus) :
    (∀ (c : Ciphertext) (ops : List EvalOp) (c2 : Ciphertext),
      runOps ctx c ops = Except.ok c2 →
      invariant_noise_budget c2 sk ctx ≤ invariant_noise_budget c sk ctx) ∧
    (∀ (c : Ciphertext) (op : EvalOp) (c2 : Ciphertext),
      op.isMul = true → 0 < invariant_noise_budget c sk ctx →
      applyOp ctx c op = Except.ok c2 →
      invariant_noise_budget c2 sk ctx < invariant_noise_budget c sk ctx) := by
  constructor
  · intro c ops c2 h
    exact runOps_budget_le ops c c2 h
  · intro c op c2 hm hb h
    have := applyOp_mul_noise_lt h2t hm h
    unfold invariant_noise_budget at hb ⊢
    omega

/-- Witness for the amended C6: one multiply-plain step under the toy
context, with positive budget before (1 bit) and budget 0 after. -/
theorem claim6_noise_monotone_witness :
    invariant_noise_budget ⟨7, 3, 2, 5, 0⟩ wSk wCtx
      ≤ invariant_noise_budget wC2 wSk wCtx ∧
    invariant_noise_budget ⟨7, 3, 2, 5, 0⟩ wSk wCtx
      < invariant_noise_budget wC2 wSk wCtx :=
  ⟨(claim6_noise_monotone wCtx wSk (by decide)).1 wC2 [EvalOp.mulPl 3]
     ⟨7, 3, 2, 5, 0⟩ (by decide),
   (claim6_noise_monotone wCtx wSk (by decide)).2 wC2 (EvalOp.mulPl 3)
     ⟨7, 3, 2, 5, 0⟩ (by decide) (by decide) (by decide)⟩

/-- C7: relinearization requires `a.size - 2 ≤ keys.count`; whenever a
ciphertext and key set of the context violate that precondition, the call
fails with `insufficientRelinKeys` instead of returning a ciphertext. -/
theorem claim7_insufficient_relin_keys (ctx : RingContext) (a : Ciphertext)
    (keys : RelinKeySet) (hactx : a.ctxId = ctx.id)
    (hkctx : keys.ctxId = ctx.id) (hviol : keys.count + 2 < a.size) :
    relinearize ctx a keys = Except.error SealError.insufficientRelinKeys := by
  unfold relinearize
  rw [if_pos ⟨hactx, hkctx⟩, if_neg (by omega)]

/-- Witness for C7: a size-5 ciphertext against a count-2 key set. -/
theorem claim7_insufficient_relin_keys_witness :
    relinearize wCtx ⟨7, 1, 5, 5, 0⟩ wKeys
      = Except.error SealError.insufficientRelinKeys :=
  claim7_insufficient_relin_keys wCtx ⟨7, 1, 5, 5, 0⟩ wKeys (by decide)
    (by decide) (by decide)

/-- C8: the noise budget is never negative and is exactly 0 once the noise
bound has reached the context's headroom, and decryption is total: it
returns a plaintext value (below the plaintext modulus) for every
ciphertext, including those with budget 0. -/
theorem claim8_budget_nonneg_decrypt_total (ctx : RingContext)
    (sk : SecretKey) (c : Ciphertext) :
    (0 : ℤ) ≤ (invariant_noise_budget c sk ctx : ℤ) ∧
    (capBits ctx ≤ c.noiseBits → invariant_noise_budget c sk ctx = 0) ∧
    (0 < ctx.plainModulus → decrypt c sk ctx < ctx.plainModulus) := by
  refine ⟨by omega, ?_, ?_⟩
  · intro h
    unfold invariant_noise_budget
    omega
  · intro ht
    unfold decrypt
    exact Nat.mod_lt _ ht

/-- Witness for C8 at a ciphertext whose noise bound (9 bits) exceeds the toy
context's headroom (4 bits). -/
theorem claim8_budget_nonneg_decrypt_total_witness :
    (0 : ℤ) ≤ (invariant_noise_budget ⟨7, 1, 2, 9, 0⟩ wSk wCtx : ℤ) ∧
    invariant_noise_budget ⟨7, 1, 2, 9, 0⟩ wSk wCtx = 0 ∧
    decrypt ⟨7, 1, 2, 9, 0⟩ wSk wCtx < wCtx.plainModulus :=
  ⟨(claim8_budget_nonneg_decrypt_total wCtx wSk ⟨7, 1, 2, 9, 0⟩).1,
   (claim8_budget_nonneg_decrypt_total wCtx wSk ⟨7, 1, 2, 9, 0⟩).2.1
     (by decide),
   (claim8_budget_nonneg_decrypt_total wCtx wSk ⟨7, 1, 2, 9, 0⟩).2.2
     (by decide)⟩

/-- C9: encryption draws fresh randomness per call, so two encryptions of
the same plaintext under the same public key with distinct randomness are
distinct ciphertexts, yet both decrypt to the same plaintext value. -/
theorem claim9_fresh_randomness (ctx : RingContext) (pk : PublicKey)
    (sk : SecretKey) (p r1 r2 : Nat) (hr : r1 ≠ r2) :
    encrypt p pk ctx r1 ≠ encrypt p pk ctx r2 ∧
    decrypt (encrypt p pk ctx r1) sk ctx
      = decrypt (encrypt p pk ctx r2) sk ctx := by
  constructor
  · intro h
    exact hr (congrArg Ciphertext.tag h)
  · rfl

/-- Witness for C9: two encryptions of 3 with randomness 0 and 1. -/
theorem claim9_fresh_randomness_witness :
    encrypt 3 wPk wCtx 0 ≠ encrypt 3 wPk wCtx 1 ∧
    decrypt (encrypt 3 wPk wCtx 0) wSk wCtx
      = decrypt (encrypt 3 wPk wCtx 1) wSk wCtx :=
  claim9_fresh_randomness wCtx wPk wSk 3 0 1 (by decide)

/-- C10: relinearizing back to size 2 after every multiplication keeps every
ciphertext of the example's depth-2 computation at size at most 3, so the
single count-1 relinearization key set suffices for every relinearize call
(each such call below returns a ciphertext). -/
theorem claim10_single_relin_key_suffices :
    relin_keys exSk exCtx 1 1 = Except.ok exKeys ∧
    exKeys.count = 1 ∧
    exX.size = 2 ∧
    exRelinS1.map Ciphertext.size = Except.ok 3 ∧
    exRelinS2.map Ciphertext.size = Except.ok 2 ∧
    exRelinS3.map Ciphertext.size = Except.ok 2 ∧
    exRelinT1.map Ciphertext.size = Except.ok 2 ∧
    exRelinT2.map Ciphertext.size = Except.ok 3 ∧
    exRelinT3.map Ciphertext.size = Except.ok 2 ∧
    exRelinU1.map Ciphertext.size = Except.ok 3 ∧
    exRelinU2.map Ciphertext.size = Except.ok 2 ∧
    exRelinFinal.map Ciphertext.size = Except.ok 2 := by decide

end Seal
